import Mathlib

set_option maxRecDepth 8000

/-!
Shallow embedding of `src/LSMTree/lsmtree.py` (classes `BloomFilter`,
`MemTable`, `SSTable`, `WAL`, `LSMTree`) and proofs about the claims of
the specification.

Modelling conventions:
* Python byte strings and text strings are modelled as `List Nat`
  (one entry per byte); text encoding is the identity on these byte
  lists, and strict decoding (`bytes.decode` with UTF-8) succeeds —
  returning the same bytes — exactly on valid UTF-8 sequences, as
  decided by `utf8Valid`; on invalid bytes it raises.
* The external compressor+serializer pipeline
  (`snappy.compress (json.dumps v)` and its inverse) is an opaque pair of
  functions `compress : Bytes → Bytes` and `decompress : Bytes → Option Bytes`
  passed as parameters; `decompress` returns `none` when the bytes fail to
  decompress or decode (the `except` path of `WAL.replay`).
* Python dicts are modelled as insertion-ordered association lists:
  an update of an existing key replaces the value in place, a new key is
  appended at the end, exactly as dict insertion order behaves.
* File contents (`wal.log`, SSTable files) are modelled by their byte
  contents / decoded contents; an `SSTable` is modelled by its logical
  content `column → (key → value)` since `write` replaces the whole file
  and `read` returns the decoded block.
* Exceptions escaping a function are modelled with `Except Unit`.
-/

/-- Bytes of a Python `bytes` or `str` value, one `Nat` per byte. -/
abbrev Bytes : Type := List Nat

/-- Lookup in an association list (first binding wins), the model of
Python `d[k]` / `k in d` on dicts. -/
def alGet (k : Bytes) : List (Bytes × α) → Option α
  | [] => none
  | p :: t => if p.1 = k then some p.2 else alGet k t

/-- Lookup with a default, the model of `d.get(k, default)`. -/
def alGetD (k : Bytes) (d : List (Bytes × α)) (dflt : α) : α :=
  (alGet k d).getD dflt

/-- Update of an association list: replaces the first binding of `k` in
place, or appends `(k, v)` at the end — the model of `d[k] = v` on a
Python dict (insertion order preserved, new keys appended). -/
def alUpdate (k : Bytes) (v : α) : List (Bytes × α) → List (Bytes × α)
  | [] => [(k, v)]
  | p :: t => if p.1 = k then (k, v) :: t else p :: alUpdate k v t

/-- Removal of the binding of `k` (the model of `del d[k]`; dicts have a
single binding per key). -/
def alRemove (k : Bytes) : List (Bytes × α) → List (Bytes × α)
  | [] => []
  | p :: t => if p.1 = k then t else p :: alRemove k t

/-- The bytes `b"put"`. -/
def opPut : Bytes := [112, 117, 116]

/-- The bytes `b"del"`. -/
def opDel : Bytes := [100, 101, 108]

/-- The bytes of the Python string literal `'delete'` that
`LSMTree.recover_from_wal` compares record operations against. -/
def opDeleteWord : Bytes := [100, 101, 108, 101, 116, 101]

/-- Model of `struct.pack` field `32s`: truncate to 32 bytes, then pad
with zero bytes on the right to exactly 32 bytes. -/
def pad32 (s : Bytes) : Bytes :=
  s.take 32 ++ List.replicate (32 - s.length) 0

/-- Model of `struct.pack('>I', n)`: 4 bytes, big-endian. -/
def be32enc (n : Nat) : Bytes :=
  [n / 16777216 % 256, n / 65536 % 256, n / 256 % 256, n % 256]

/-- Model of `struct.unpack('>I', ...)` on the first 4 bytes. -/
def be32dec : Bytes → Nat
  | b0 :: b1 :: b2 :: b3 :: _ => ((b0 * 256 + b1) * 256 + b2) * 256 + b3
  | _ => 0

/-- Model of Python `s.strip(NUL)` as used on decoded column/key fields:
removes zero bytes from both ends. -/
def stripNul (b : Bytes) : Bytes :=
  ((b.dropWhile (· == 0)).reverse.dropWhile (· == 0)).reverse

/-- Bytes appended to `wal.log` by `WAL.append('put', column, key, value)`:
`>3s32s32sI` header followed by the compressed value body. -/
def walAppendPut (compress : Bytes → Bytes) (column key value : Bytes) : Bytes :=
  let value_data := compress value
  opPut ++ pad32 column ++ pad32 key ++ be32enc value_data.length ++ value_data

/-- Bytes appended to `wal.log` by `WAL.append` with any operation other
than `'put'` (the engine passes `'delete'`): `>3s32s32s`, 67 bytes, no
length field and no body. -/
def walAppendDel (column key : Bytes) : Bytes :=
  opDel ++ pad32 column ++ pad32 key

/-- One tuple yielded by `WAL.replay`: the decoded operation bytes, the
NUL-stripped column and key, and (for put records) the decoded value.
Replay yields 3-tuples for non-put records, modelled by `value = none`. -/
structure WRec where
  op : Bytes
  column : Bytes
  key : Bytes
  value : Option Bytes
deriving DecidableEq, Repr

/-- Strict UTF-8 validity of a byte sequence, exactly what Python's
default `bytes.decode` accepts (RFC 3629): ASCII bytes stand alone;
leads `C2..DF`, `E0..EF`, `F0..F4` take 1, 2, 3 continuation bytes in
`80..BF`, with the restricted ranges that exclude overlong forms
(`E0 A0..`, `F0 90..`), surrogates (`ED 80..9F` only) and code points
past U+10FFFF (`F4 80..8F` only); everything else is invalid. -/
def utf8Valid : Bytes → Bool
  | [] => true
  | b :: rest =>
    if b ≤ 127 then utf8Valid rest
    else
      match rest with
      | [] => false
      | c1 :: r1 =>
        if 194 ≤ b && b ≤ 223 then (128 ≤ c1 && c1 ≤ 191) && utf8Valid r1
        else
          match r1 with
          | [] => false
          | c2 :: r2 =>
            if b = 224 then
              (160 ≤ c1 && c1 ≤ 191) && (128 ≤ c2 && c2 ≤ 191) && utf8Valid r2
            else if (225 ≤ b && b ≤ 236) || b = 238 || b = 239 then
              (128 ≤ c1 && c1 ≤ 191) && (128 ≤ c2 && c2 ≤ 191) && utf8Valid r2
            else if b = 237 then
              (128 ≤ c1 && c1 ≤ 159) && (128 ≤ c2 && c2 ≤ 191) && utf8Valid r2
            else
              match r2 with
              | [] => false
              | c3 :: r3 =>
                if b = 240 then
                  (144 ≤ c1 && c1 ≤ 191) && (128 ≤ c2 && c2 ≤ 191) &&
                    (128 ≤ c3 && c3 ≤ 191) && utf8Valid r3
                else if 241 ≤ b && b ≤ 243 then
                  (128 ≤ c1 && c1 ≤ 191) && (128 ≤ c2 && c2 ≤ 191) &&
                    (128 ≤ c3 && c3 ≤ 191) && utf8Valid r3
                else if b = 244 then
                  (128 ≤ c1 && c1 ≤ 143) && (128 ≤ c2 && c2 ≤ 191) &&
                    (128 ≤ c3 && c3 ≤ 191) && utf8Valid r3
                else false

/-- Loop body of `WAL.replay`, fuel-indexed for structural recursion.
Each iteration consumes at least 71 bytes of `data`, so fuel
`data.length + 1` (as supplied by `walReplay`) is never exhausted; the
fuel-0 branch is unreachable. Faithful to the source:
`f.read(71)` returning no bytes ends the loop; returning fewer than 71
bytes makes `struct.unpack` raise (`Except.error`); in the put branch the
whole tuple construction sits inside `try`, so a body that fails to
decompress or decode, or a column/key field whose bytes are not valid
UTF-8, is skipped with a warning and the loop continues (the op field is
the literal `b"put"` there, whose decode always succeeds); in the non-put
branch the op/column/key decodes are unprotected, so an invalid field
raises out of `replay`. A non-put record is parsed from the 71 bytes
read, so its last 4 bytes — which belong to the next record, a delete
record being only 67 bytes — are consumed as the `value_len` field and
discarded. -/
def walReplayGo (decompress : Bytes → Option Bytes) : Nat → Bytes → Except Unit (List WRec)
  | 0, _ => .error ()
  | fuel + 1, data =>
    if data.isEmpty then .ok []
    else if data.length < 71 then .error ()
    else
      let op := data.take 3
      let column := (data.drop 3).take 32
      let key := (data.drop 35).take 32
      let value_len := be32dec (data.drop 67)
      if op = opPut then
        let rest := data.drop 71
        let body := rest.take value_len
        match decompress body with
        | some v =>
          if utf8Valid column && utf8Valid key then
            match walReplayGo decompress fuel (rest.drop value_len) with
            | .ok tail => .ok (⟨op, stripNul column, stripNul key, some v⟩ :: tail)
            | .error e => .error e
          else walReplayGo decompress fuel (rest.drop value_len)
        | none => walReplayGo decompress fuel (rest.drop value_len)
      else
        if utf8Valid op && utf8Valid column && utf8Valid key then
          match walReplayGo decompress fuel (data.drop 71) with
          | .ok tail => .ok (⟨op, stripNul column, stripNul key, none⟩ :: tail)
          | .error e => .error e
        else .error ()

/-- Model of `WAL.replay()` on the byte contents of `wal.log`. An
uncaught exception inside the loop (notably `struct.error` from a short
header read) discards the collected entries and propagates. -/
def walReplay (decompress : Bytes → Option Bytes) (data : Bytes) : Except Unit (List WRec) :=
  walReplayGo decompress (data.length + 1) data

/-- Concrete stand-in for `snappy.compress(json.dumps v)` used by closed
evaluations: an injective byte-level code with an explicit failure case
in its inverse. -/
def cmp0 (v : Bytes) : Bytes := 1 :: v

/-- Partial inverse of `cmp0`: bytes not produced by `cmp0` fail to
decode, modelling a `snappy`/`json` exception. -/
def dec0 : Bytes → Option Bytes
  | 1 :: t => some t
  | _ => none

/-- Model of the `BloomFilter` class: bit array of `size` bits, all zero
at construction. -/
structure BloomFilter where
  size : Nat
  hash_count : Nat
  bit_array : List Bool
deriving DecidableEq, Repr

/-- Construction `BloomFilter(size, hash_count)`. -/
def bloomFresh (size hash_count : Nat) : BloomFilter :=
  ⟨size, hash_count, List.replicate size false⟩

/-- Model of `BloomFilter._hashes`: the comprehension
`[int(md5(item).hexdigest(), 16) % size for _ in range(hash_count)]`
ignores the loop variable, so it is `hash_count` copies of the same
index. The digest-to-integer map `md5` is the opaque parameter `h`. -/
def bloomHashes (h : Bytes → Nat) (bf : BloomFilter) (item : Bytes) : List Nat :=
  List.replicate bf.hash_count (h item % bf.size)

/-- Model of `BloomFilter.add`. -/
def bloomAdd (h : Bytes → Nat) (bf : BloomFilter) (item : Bytes) : BloomFilter :=
  { bf with bit_array := (bloomHashes h bf item).foldl (fun arr i => arr.set i true) bf.bit_array }

/-- Model of `BloomFilter.check`: false as soon as one hashed bit is 0,
true otherwise (vacuously true when `hash_count = 0`). -/
def bloomCheck (h : Bytes → Nat) (bf : BloomFilter) (item : Bytes) : Bool :=
  (bloomHashes h bf item).all (fun i => bf.bit_array.getD i false)

/-- Logical content of one SSTable level: the decoded
`column → (key → value)` mapping, in index (= insertion) order.
`SSTable.write` replaces the whole mapping and `SSTable.read c` returns
the decoded block of `c` (or an empty dict when `c` is not indexed), so
the file plus index are modelled by this content. -/
abbrev Table : Type := List (Bytes × List (Bytes × Bytes))

/-- Lookup of `(column, key)` in one table:
`read(column)` followed by `[key]`. -/
def tblGet (t : Table) (c k : Bytes) : Option Bytes :=
  alGet k (alGetD c t [])

/-- Model of the `MemTable` class. `size` counts insertions minus
successful removals, as a Python integer. -/
structure MemTable where
  table : Table
  size : Int
deriving DecidableEq, Repr

/-- Model of `MemTable.put`. -/
def mtPut (mt : MemTable) (c k v : Bytes) : MemTable :=
  { table := alUpdate c (alUpdate k v (alGetD c mt.table [])) mt.table,
    size := mt.size + 1 }

/-- Model of `MemTable.get`. -/
def mtGet (mt : MemTable) (c k : Bytes) : Option Bytes :=
  tblGet mt.table c k

/-- Model of `MemTable.delete`: removes the key and decrements `size`
only when `(c, k)` is present; the column entry stays even when its dict
becomes empty. -/
def mtDelete (mt : MemTable) (c k : Bytes) : MemTable :=
  match alGet c mt.table with
  | some d =>
    if (alGet k d).isSome then
      { table := alUpdate c (alRemove k d) mt.table, size := mt.size - 1 }
    else mt
  | none => mt

/-- Fresh `MemTable()` (also the result of `MemTable.clear`). -/
def mtEmpty : MemTable := ⟨[], 0⟩

/-- Model of `dict.update`: bindings of `e` overwrite those of `d`
per key, new keys appended in the order of `e`. -/
def dictUpdate (d e : List (Bytes × Bytes)) : List (Bytes × Bytes) :=
  e.foldl (fun acc p => alUpdate p.1 p.2 acc) d

/-- Body of the per-level loop of `LSMTree.merge_sstables`: read all of
the level's columns (`table`), merge the memtable snapshot in with
`table[column].update(kv)` — snapshot entry wins on equal keys — and this
is the table then written back to the SSTable. -/
def mergeTable (t : Table) (snap : Table) : Table :=
  snap.foldl (fun acc p => alUpdate p.1 (dictUpdate (alGetD p.1 acc []) p.2) acc) t

/-- Model of `LSMTree.compact(level)`: a no-op on the last level;
otherwise merges the level's columns into the next level with the
current level winning per key, writes the next level, and empties the
current level. -/
def compactT (tables : List Table) (level : Nat) : List Table :=
  if level = tables.length - 1 then tables
  else
    let current_table := tables.getD level []
    let next_table := tables.getD (level + 1) []
    let merged := mergeTable next_table current_table
    (tables.set (level + 1) merged).set level []

/-- Loop of `LSMTree.merge_sstables` over the level indices, carrying the
evolving list of SSTable contents. Besides the final contents it returns
two ghost observations of the loop: the table written at each index, and
the indices at which `compact` was invoked (exactly when the written
table's column count exceeded 200). -/
def mergeLoop (snap : Table) : List Nat → List Table → List Table × List (Nat × Table) × List Nat
  | [], tables => (tables, [], [])
  | i :: rest, tables =>
    let written := mergeTable (tables.getD i []) snap
    let tables1 := tables.set i written
    let tables2 := if 200 < written.length then compactT tables1 i else tables1
    let r := mergeLoop snap rest tables2
    (r.1, (i, written) :: r.2.1, if 200 < written.length then i :: r.2.2 else r.2.2)

/-- Model of `LSMTree.merge_sstables(memtable_data)` on the SSTable
contents (`enumerate(self.sstables)` runs over the fixed level count). -/
def mergeSStables (snap : Table) (tables : List Table) : List Table × List (Nat × Table) × List Nat :=
  mergeLoop snap (List.range tables.length) tables

/-- Engine state: the fields of `LSMTree` that the public operations
touch, with `wal` the byte contents of `wal.log`. -/
structure DB where
  memtable : MemTable
  sstables : List Table
  bloom : BloomFilter
  wal : Bytes
deriving DecidableEq, Repr

/-- Engine state right after `LSMTree.__init__` on a fresh directory:
empty memtable, three empty SSTables, `BloomFilter(10000, 4)`, and the
WAL truncated by the trailing `recover_from_wal`. -/
def dbInit : DB :=
  ⟨mtEmpty, [[], [], []], bloomFresh 10000 4, []⟩

/-- Model of `LSMTree.flush`: snapshot the memtable, merge it into every
SSTable level, clear the memtable. The source's `flush` never touches
`wal.log` (`WAL.clear` is called only by `recover_from_wal`). -/
def dbFlush (db : DB) : DB :=
  { db with
    sstables := (mergeSStables db.memtable.table db.sstables).1,
    memtable := mtEmpty }

/-- The bloom filter item for `(column, key)`: the f-string
`'column:key'`, 58 being the colon byte. -/
def bloomItem (c k : Bytes) : Bytes := c ++ [58] ++ k

/-- Model of `LSMTree.put`: append the put WAL record, update the
memtable, add to the bloom filter, and flush when the memtable size
exceeds 200. -/
def dbPut (compress : Bytes → Bytes) (h : Bytes → Nat) (db : DB) (c k v : Bytes) : DB :=
  let mt := mtPut db.memtable c k v
  let db1 : DB :=
    { db with
      wal := db.wal ++ walAppendPut compress c k v,
      memtable := mt,
      bloom := bloomAdd h db.bloom (bloomItem c k) }
  if 200 < mt.size then dbFlush db1 else db1

/-- Model of `LSMTree.delete`: append the delete WAL record and remove
from the memtable; SSTables are untouched (no tombstone). -/
def dbDelete (db : DB) (c k : Bytes) : DB :=
  { db with
    wal := db.wal ++ walAppendDel c k,
    memtable := mtDelete db.memtable c k }

/-- SSTable scan of `LSMTree.get`: first level whose block for the
column contains the key wins. -/
def findInSSTables (tables : List Table) (c k : Bytes) : Option Bytes :=
  match tables with
  | [] => none
  | t :: rest =>
    match tblGet t c k with
    | some v => some v
    | none => findInSSTables rest c k

/-- Model of `LSMTree.get`: bloom filter first (a miss short-circuits to
`None`), then the memtable, then the SSTable levels in order. -/
def dbGet (h : Bytes → Nat) (db : DB) (c k : Bytes) : Option Bytes :=
  if bloomCheck h db.bloom (bloomItem c k) then
    match mtGet db.memtable c k with
    | some v => some v
    | none => findInSSTables db.sstables c k
  else none

/-- Per-source body of `LSMTree.query`: iterate the dict's keys in
sorted order and keep `(key, d[key])` for keys in `[a, b]`. -/
def rangePairs (d : List (Bytes × Bytes)) (a b : Bytes) : List (Bytes × Bytes) :=
  ((List.insertionSort (· ≤ ·) (d.map Prod.fst)).filter
      (fun k => decide (a ≤ k) && decide (k ≤ b))).map
    (fun k => (k, alGetD k d []))

/-- SSTable part of `LSMTree.query`: one sorted filtered segment per
level, concatenated in level order. -/
def queryTables (tables : List Table) (c a b : Bytes) : List (Bytes × Bytes) :=
  match tables with
  | [] => []
  | t :: rest => rangePairs (alGetD c t []) a b ++ queryTables rest c a b

/-- Model of `LSMTree.query(column, start_key, end_key)`: the memtable
segment (when the column is present) followed by the per-level SSTable
segments; the bloom filter is not consulted and no cross-source
deduplication happens. -/
def dbQuery (db : DB) (c a b : Bytes) : List (Bytes × Bytes) :=
  (match alGet c db.memtable.table with
   | some d => rangePairs d a b
   | none => []) ++ queryTables db.sstables c a b

/-- Dispatch loop of `LSMTree.recover_from_wal` over the tuples returned
by `WAL.replay`: an op equal to `'put'` inserts; an op equal to the
string `'delete'` removes — note `replay` decodes the 3-byte op field,
yielding `'del'`, never `'delete'`. Any other op is ignored. -/
def recoverApply (mt : MemTable) (rs : List WRec) : MemTable :=
  rs.foldl
    (fun mt r =>
      if r.op = opPut then
        match r.value with
        | some v => mtPut mt r.column r.key v
        | none => mt
      else if r.op = opDeleteWord then mtDelete mt r.column r.key
      else mt)
    mt

/-- Model of `LSMTree.recover_from_wal` acting on the constructor's fresh
memtable and the bytes of `wal.log`: replay (propagating any exception),
apply the records, then truncate the WAL. -/
def recoverFromWal (decompress : Bytes → Option Bytes) (wal : Bytes) :
    Except Unit (MemTable × Bytes) :=
  match walReplay decompress wal with
  | .ok rs => .ok (recoverApply mtEmpty rs, [])
  | .error e => .error e

/-- Opaque digest stand-in (`int(md5(item).hexdigest(), 16)`) used by
closed evaluations; theorems about the filter quantify over the digest
function, so any concrete choice serves for witnesses. -/
def h0 : Bytes → Nat := fun _ => 0

/-- Sequence of `BloomFilter.add` calls. Interleaved `check` calls do
not mutate the filter, so an interleaving of adds and checks is captured
by the list of added items. -/
def bloomAddAll (h : Bytes → Nat) (bf : BloomFilter) (items : List Bytes) : BloomFilter :=
  items.foldl (bloomAdd h) bf

/-- Well-formedness of a decoded table as Python dicts guarantee it:
column keys are pairwise distinct and so are the keys of each inner
dict. -/
def TableWF (t : Table) : Prop :=
  (t.map Prod.fst).Nodup ∧ ∀ p ∈ t, ((p.2.map Prod.fst).Nodup)

instance (t : Table) : Decidable (TableWF t) :=
  decidable_of_iff ((t.map Prod.fst).Nodup ∧ ∀ p ∈ t, ((p.2.map Prod.fst).Nodup)) Iff.rfl

/-- C1: the source's `flush` empties the MemTable but never calls
`WAL.clear`; after `put('c','k',v)` then `flush()` on a fresh engine, the
73-byte put record is still the entire content of `wal.log`. -/
theorem C1_flush_leaves_wal_nonempty :
    (dbFlush (dbPut cmp0 h0 dbInit [99] [107] [5])).memtable = mtEmpty ∧
    (dbFlush (dbPut cmp0 h0 dbInit [99] [107] [5])).wal = walAppendPut cmp0 [99] [107] [5] ∧
    (dbFlush (dbPut cmp0 h0 dbInit [99] [107] [5])).wal ≠ [] := by
  refine ⟨rfl, rfl, ?_⟩
  decide

/-- C2: a delete record is written as exactly 67 bytes, but `replay`
reads a fixed 71-byte header for every record, so a WAL holding a single
delete record ends in a 67-byte short read and `struct.unpack` raises. -/
theorem C2_replay_raises_on_single_delete_record :
    (walAppendDel [99] [107]).length = 67 ∧
    walReplay dec0 (walAppendDel [99] [107]) = .error () := by
  exact ⟨by decide, rfl⟩

/-- C3: recovery does not implement the claim. Replaying a WAL holding
`put('c','k',v)` followed by `delete('c','k')` raises (the trailing
67-byte delete record is a short 71-byte header read); and even on the
tuples a successful replay would yield — op `'del'`, not `'delete'` —
the dispatch of `recover_from_wal` never matches its `'delete'` branch,
so the deleted key survives in the recovered MemTable. -/
theorem C3_recovery_ignores_deletes :
    walReplay dec0 (walAppendPut cmp0 [99] [107] [5] ++ walAppendDel [99] [107]) = .error () ∧
    recoverApply mtEmpty
        [⟨opPut, [99], [107], some [5]⟩, ⟨opDel, [99], [107], none⟩] =
      ⟨[([99], [([107], [5])])], 1⟩ := by
  exact ⟨rfl, rfl⟩

/-- C4: a truncated tail does not end replay silently: after one
complete put record, 20 trailing junk bytes are returned by `f.read(71)`
as a non-empty short header and `struct.unpack` raises, so `replay`
returns nothing instead of the one put record. -/
theorem C4_replay_raises_on_truncated_tail :
    walReplay dec0 (walAppendPut cmp0 [99] [107] [5] ++ List.replicate 20 42) = .error () := by
  rfl

/-- C5 counterexample: with `key` resident in both the MemTable and an
SSTable (the state any flush produces), `query` returns the key twice —
once per source — so its keys are not pairwise distinct and no
cross-source precedence is applied. -/
theorem C5_counterexample_duplicate_key :
    dbQuery ⟨⟨[([99], [([107], [1])])], 1⟩, [[([99], [([107], [2])])], [], []],
        bloomFresh 10000 4, []⟩ [99] [107] [107] =
      [([107], [1]), ([107], [2])] ∧
    ¬ ((dbQuery ⟨⟨[([99], [([107], [1])])], 1⟩, [[([99], [([107], [2])])], [], []],
        bloomFresh 10000 4, []⟩ [99] [107] [107]).map Prod.fst).Nodup := by
  exact ⟨by decide, by decide⟩

/-- C6 counterexample: `put('c','k',v)`, `flush()`, `delete('c','k')`,
then `get('c','k')` returns the flushed value `v`, not nil — `delete`
only touches the MemTable and writes no tombstone, so the SSTable copy
survives it. -/
theorem C6_counterexample_delete_does_not_hide_flushed_value :
    dbGet h0 (dbDelete (dbFlush (dbPut cmp0 h0 dbInit [99] [107] [5])) [99] [107])
      [99] [107] = some [5] := by
  rfl

/-- C9 counterexample: with `hash_count = 0`, `check` returns true on a
filter to which nothing was ever added, while a bloom filter with a
single hash function returns false there; the claimed equivalence
`check(x) = true ↔ some added y collides with x` fails, and `hash_count`
does affect behavior (compare `hash_count = 1`). -/
theorem C9_counterexample_hash_count_zero :
    bloomCheck h0 (List.foldl (bloomAdd h0) (bloomFresh 10 0) []) [97] = true ∧
    ¬ (∃ y ∈ ([] : List Bytes), h0 y % 10 = h0 [97] % 10) ∧
    bloomCheck h0 (List.foldl (bloomAdd h0) (bloomFresh 10 1) []) [97] = false := by
  refine ⟨rfl, by simp, rfl⟩

lemma getD_set_true (l : List Bool) (i j : Nat) (h : l.getD i false = true) :
    (l.set j true).getD i false = true := by
  rw [List.getD_eq_getElem?_getD, List.getElem?_set]
  rw [List.getD_eq_getElem?_getD] at h
  by_cases hji : j = i
  · subst hji
    by_cases hl : j < l.length
    · simp [hl]
    · rw [List.getElem?_eq_none (by omega)] at h
      simp at h
  · simp only [hji, if_false]
    exact h

lemma foldl_set_true_getD (hs : List Nat) (arr : List Bool) (i : Nat)
    (h : arr.getD i false = true) :
    (hs.foldl (fun a j => a.set j true) arr).getD i false = true := by
  induction hs generalizing arr with
  | nil => exact h
  | cons j t ih => exact ih _ (getD_set_true _ _ _ h)

lemma foldl_set_length (hs : List Nat) (arr : List Bool) :
    (hs.foldl (fun a j => a.set j true) arr).length = arr.length := by
  induction hs generalizing arr with
  | nil => rfl
  | cons j t ih => rw [List.foldl_cons, ih, List.length_set]

lemma foldl_set_replicate (m idx : Nat) (arr : List Bool) :
    (List.replicate (m + 1) idx).foldl (fun a j => a.set j true) arr = arr.set idx true := by
  induction m generalizing arr with
  | zero => rfl
  | succ n ih =>
    rw [List.replicate_succ, List.foldl_cons]
    rw [show List.replicate (n + 1) idx = List.replicate (n + 1) idx from rfl, ih,
      List.set_set]

lemma bloomAdd_size (h : Bytes → Nat) (bf : BloomFilter) (x : Bytes) :
    (bloomAdd h bf x).size = bf.size := rfl

lemma bloomAdd_hash_count (h : Bytes → Nat) (bf : BloomFilter) (x : Bytes) :
    (bloomAdd h bf x).hash_count = bf.hash_count := rfl

lemma bloomAdd_length (h : Bytes → Nat) (bf : BloomFilter) (x : Bytes) :
    (bloomAdd h bf x).bit_array.length = bf.bit_array.length :=
  foldl_set_length _ _

lemma bloomAdd_bit_true (h : Bytes → Nat) (bf : BloomFilter) (x : Bytes) (i : Nat)
    (hbit : bf.bit_array.getD i false = true) :
    (bloomAdd h bf x).bit_array.getD i false = true :=
  foldl_set_true_getD _ _ _ hbit

lemma bloomAddAll_size (h : Bytes → Nat) (bf : BloomFilter) (items : List Bytes) :
    (bloomAddAll h bf items).size = bf.size := by
  induction items generalizing bf with
  | nil => rfl
  | cons y t ih => exact ih _

lemma bloomAddAll_hash_count (h : Bytes → Nat) (bf : BloomFilter) (items : List Bytes) :
    (bloomAddAll h bf items).hash_count = bf.hash_count := by
  induction items generalizing bf with
  | nil => rfl
  | cons y t ih => exact ih _

lemma bloomAddAll_bit_true (h : Bytes → Nat) (bf : BloomFilter) (items : List Bytes) (i : Nat)
    (hbit : bf.bit_array.getD i false = true) :
    (bloomAddAll h bf items).bit_array.getD i false = true := by
  induction items generalizing bf with
  | nil => exact hbit
  | cons y t ih => exact ih _ (bloomAdd_bit_true _ _ _ _ hbit)

lemma bloomAdd_bit_self (h : Bytes → Nat) (bf : BloomFilter) (x : Bytes)
    (hlen : bf.bit_array.length = bf.size) (hpos : 0 < bf.size) (hk : 1 ≤ bf.hash_count) :
    (bloomAdd h bf x).bit_array.getD (h x % bf.size) false = true := by
  obtain ⟨m, hm⟩ : ∃ m, bf.hash_count = m + 1 :=
    ⟨bf.hash_count - 1, by omega⟩
  have hidx : h x % bf.size < bf.bit_array.length := by
    rw [hlen]
    exact Nat.mod_lt _ hpos
  show ((bloomHashes h bf x).foldl (fun a j => a.set j true) bf.bit_array).getD
      (h x % bf.size) false = true
  rw [bloomHashes, hm, foldl_set_replicate]
  rw [List.getD_eq_getElem?_getD, List.getElem?_set]
  simp [hidx]

lemma all_replicate_succ (m : Nat) (a : α) (p : α → Bool) :
    (List.replicate (m + 1) a).all p = p a := by
  induction m with
  | zero => simp
  | succ n ih =>
    rw [List.replicate_succ, List.all_cons, ih]
    cases p a <;> simp

lemma bloomCheck_eq_bit (h : Bytes → Nat) (bf : BloomFilter) (x : Bytes)
    (hk : 1 ≤ bf.hash_count) :
    bloomCheck h bf x = bf.bit_array.getD (h x % bf.size) false := by
  obtain ⟨m, hm⟩ : ∃ m, bf.hash_count = m + 1 :=
    ⟨bf.hash_count - 1, by omega⟩
  rw [bloomCheck, bloomHashes, hm, all_replicate_succ]

/-- C8: once `add(x)` has run, every later `check(x)` returns true no
matter which further items are added in between — `add` only sets bits
and nothing ever clears them. (When `hash_count = 0`, `check` is
vacuously true.) Well-formedness of an engine-built filter is assumed:
the bit array has exactly `size` entries and `size` is positive. -/
theorem C8_no_false_negatives (h : Bytes → Nat) (bf : BloomFilter) (x : Bytes)
    (items : List Bytes)
    (hlen : bf.bit_array.length = bf.size) (hpos : 0 < bf.size) :
    bloomCheck h (bloomAddAll h (bloomAdd h bf x) items) x = true := by
  rcases Nat.eq_zero_or_pos bf.hash_count with hk | hk
  · rw [bloomCheck, bloomHashes, bloomAddAll_hash_count, bloomAdd_hash_count, hk]
    rfl
  · rw [bloomCheck_eq_bit]
    · rw [bloomAddAll_size, bloomAdd_size]
      exact bloomAddAll_bit_true _ _ _ _ (bloomAdd_bit_self _ _ _ hlen hpos hk)
    · rw [bloomAddAll_hash_count, bloomAdd_hash_count]
      exact hk

/-- C8 witness at a concrete filter, item and later adds. -/
theorem C8_witness :
    (bloomFresh 16 3).bit_array.length = (bloomFresh 16 3).size ∧ 0 < (bloomFresh 16 3).size ∧
    bloomCheck h0 (bloomAddAll h0 (bloomAdd h0 (bloomFresh 16 3) [97]) [[98], [99]]) [97] = true :=
  ⟨by decide, by decide,
    C8_no_false_negatives h0 (bloomFresh 16 3) [97] [[98], [99]] (by decide) (by decide)⟩

lemma getD_replicate_false (n i : Nat) :
    (List.replicate n false).getD i false = false := by
  rw [List.getD_eq_getElem?_getD, List.getElem?_replicate]
  by_cases hi : i < n <;> simp [hi]

lemma bloomAdd_bit_iff (h : Bytes → Nat) (bf : BloomFilter) (y : Bytes) (i : Nat)
    (hlen : bf.bit_array.length = bf.size) (hk : 1 ≤ bf.hash_count) (hi : i < bf.size) :
    ((bloomAdd h bf y).bit_array.getD i false = true ↔
      (bf.bit_array.getD i false = true ∨ h y % bf.size = i)) := by
  obtain ⟨m, hm⟩ : ∃ m, bf.hash_count = m + 1 :=
    ⟨bf.hash_count - 1, by omega⟩
  have hj : h y % bf.size < bf.bit_array.length := by
    rw [hlen]
    exact Nat.mod_lt _ (by omega)
  show ((bloomHashes h bf y).foldl (fun a j => a.set j true) bf.bit_array).getD i false = true ↔ _
  rw [bloomHashes, hm, foldl_set_replicate, List.getD_eq_getElem?_getD, List.getElem?_set]
  by_cases hji : h y % bf.size = i
  · rw [if_pos hji, if_pos (hji ▸ hj)]
    simp [hji]
  · rw [if_neg hji, ← List.getD_eq_getElem?_getD]
    simp [hji]

lemma bloomAddAll_bit_iff (h : Bytes → Nat) (items : List Bytes) :
    ∀ (bf : BloomFilter) (i : Nat), bf.bit_array.length = bf.size → 1 ≤ bf.hash_count →
      i < bf.size →
      ((bloomAddAll h bf items).bit_array.getD i false = true ↔
        (bf.bit_array.getD i false = true ∨ ∃ y ∈ items, h y % bf.size = i)) := by
  induction items with
  | nil => simp [bloomAddAll]
  | cons y t ih =>
    intro bf i hlen hk hi
    have hlen' : (bloomAdd h bf y).bit_array.length = (bloomAdd h bf y).size := by
      rw [bloomAdd_length, bloomAdd_size, hlen]
    have hk' : 1 ≤ (bloomAdd h bf y).hash_count := by
      rw [bloomAdd_hash_count]
      exact hk
    have hi' : i < (bloomAdd h bf y).size := by
      rw [bloomAdd_size]
      exact hi
    have step := ih (bloomAdd h bf y) i hlen' hk' hi'
    rw [show bloomAddAll h bf (y :: t) = bloomAddAll h (bloomAdd h bf y) t from rfl, step,
      bloomAdd_size, bloomAdd_bit_iff h bf y i hlen hk hi]
    simp only [List.mem_cons]
    constructor
    · rintro ((hb | hy) | ⟨z, hz, hzi⟩)
      · exact Or.inl hb
      · exact Or.inr ⟨y, Or.inl rfl, hy⟩
      · exact Or.inr ⟨z, Or.inr hz, hzi⟩
    · rintro (hb | ⟨z, (rfl | hz), hzi⟩)
      · exact Or.inl (Or.inl hb)
      · exact Or.inl (Or.inr hzi)
      · exact Or.inr ⟨z, hz, hzi⟩

/-- C9 (amended): for `hash_count ≥ 1`, all index values of `_hashes`
coincide and the filter built by any sequence of adds behaves exactly as
a single-hash bloom filter: `check(x)` is true iff some added item
collides with `x` modulo `size`. In particular the behavior does not
depend on `hash_count ≥ 1`, the right-hand side being independent of it;
`hash_count = 0` is the exception the counterexample exhibits. -/
theorem C9_single_hash_equivalence (h : Bytes → Nat) (size k : Nat) (items : List Bytes)
    (x : Bytes) (hpos : 0 < size) (hk : 1 ≤ k) :
    (∀ a ∈ bloomHashes h (bloomAddAll h (bloomFresh size k) items) x,
        ∀ b ∈ bloomHashes h (bloomAddAll h (bloomFresh size k) items) x, a = b) ∧
    (bloomCheck h (bloomAddAll h (bloomFresh size k) items) x = true ↔
        ∃ y ∈ items, h y % size = h x % size) := by
  constructor
  · intro a ha b hb
    rw [bloomHashes] at ha hb
    rw [List.eq_of_mem_replicate ha, List.eq_of_mem_replicate hb]
  · have hkk : 1 ≤ (bloomAddAll h (bloomFresh size k) items).hash_count := by
      rw [bloomAddAll_hash_count]
      exact hk
    rw [bloomCheck_eq_bit _ _ _ hkk, bloomAddAll_size]
    have hfr : (bloomFresh size k).size = size := rfl
    rw [hfr]
    have := bloomAddAll_bit_iff h items (bloomFresh size k) (h x % size)
      (by simp [bloomFresh]) hk (by rw [hfr]; exact Nat.mod_lt _ hpos)
    rw [hfr] at this
    rw [this, show (bloomFresh size k).bit_array = List.replicate size false from rfl,
      getD_replicate_false]
    simp

/-- C9 witness: the amended equivalence applied at a concrete filter. -/
theorem C9_witness :
    (0 < 10 ∧ 1 ≤ 4) ∧
    (bloomCheck h0 (bloomAddAll h0 (bloomFresh 10 4) [[97]]) [98] = true ↔
        ∃ y ∈ [([97] : Bytes)], h0 y % 10 = h0 [98] % 10) :=
  ⟨⟨by decide, by decide⟩,
    (C9_single_hash_equivalence h0 10 4 [[97]] [98] (by decide) (by decide)).2⟩

lemma alGet_alUpdate_self (k : Bytes) (v : α) (d : List (Bytes × α)) :
    alGet k (alUpdate k v d) = some v := by
  induction d with
  | nil => simp [alGet, alUpdate]
  | cons p t ih =>
    rw [alUpdate]
    by_cases hp : p.1 = k
    · simp [alGet, hp]
    · rw [if_neg hp, alGet, if_neg hp]
      exact ih

lemma alGet_alUpdate_ne (k k' : Bytes) (v : α) (d : List (Bytes × α)) (hne : k' ≠ k) :
    alGet k (alUpdate k' v d) = alGet k d := by
  induction d with
  | nil => simp [alGet, alUpdate, hne]
  | cons p t ih =>
    rw [alUpdate]
    by_cases hp : p.1 = k'
    · rw [if_pos hp]
      rw [alGet, if_neg hne, alGet, if_neg (fun hk => hne (hp ▸ hk))]
    · rw [if_neg hp, alGet, alGet]
      by_cases hpk : p.1 = k
      · rw [if_pos hpk, if_pos hpk]
      · rw [if_neg hpk, if_neg hpk]
        exact ih

lemma alGet_eq_none_of_not_mem (k : Bytes) (d : List (Bytes × α))
    (h : k ∉ d.map Prod.fst) : alGet k d = none := by
  induction d with
  | nil => rfl
  | cons p t ih =>
    rw [alGet, if_neg, ih]
    · intro hm
      exact h (by simp [hm])
    · intro hp
      exact h (by simp [hp])

lemma alGet_dictUpdate (e : List (Bytes × Bytes)) (hnd : (e.map Prod.fst).Nodup) :
    ∀ (d : List (Bytes × Bytes)) (k : Bytes),
      alGet k (dictUpdate d e) = (alGet k e).or (alGet k d) := by
  induction e with
  | nil =>
    intro d k
    simp [dictUpdate, alGet, Option.none_or]
  | cons p t ih =>
    intro d k
    rw [List.map_cons, List.nodup_cons] at hnd
    rw [show dictUpdate d (p :: t) = dictUpdate (alUpdate p.1 p.2 d) t from rfl,
      ih hnd.2]
    by_cases hk : p.1 = k
    · subst hk
      rw [alGet_eq_none_of_not_mem p.1 t hnd.1, alGet_alUpdate_self, alGet,
        if_pos rfl, Option.none_or]
      rfl
    · rw [alGet_alUpdate_ne _ _ _ _ hk, alGet, if_neg hk]

lemma tblGet_cons_self (p : Bytes × List (Bytes × Bytes)) (rest : Table) (k : Bytes) :
    tblGet (p :: rest) p.1 k = alGet k p.2 := by
  rw [tblGet, alGetD, alGet, if_pos rfl]
  rfl

lemma tblGet_cons_ne (p : Bytes × List (Bytes × Bytes)) (rest : Table) (c k : Bytes)
    (hc : p.1 ≠ c) : tblGet (p :: rest) c k = tblGet rest c k := by
  rw [tblGet, alGetD, alGet, if_neg hc]
  rfl

lemma tblGet_update_self (t : Table) (c k : Bytes) (x : List (Bytes × Bytes)) :
    tblGet (alUpdate c x t) c k = alGet k x := by
  rw [tblGet, alGetD, alGet_alUpdate_self]
  rfl

lemma tblGet_update_ne (t : Table) (c c' k : Bytes) (x : List (Bytes × Bytes))
    (hne : c' ≠ c) : tblGet (alUpdate c' x t) c k = tblGet t c k := by
  rw [tblGet, alGetD, alGet_alUpdate_ne _ _ _ _ hne]
  rfl

lemma tblGet_none_of_not_mem (t : Table) (c k : Bytes) (h : c ∉ t.map Prod.fst) :
    tblGet t c k = none := by
  rw [tblGet, alGetD, alGet_eq_none_of_not_mem c t h]
  rfl

lemma tblGet_mergeTable (snap : Table) (hwf : TableWF snap) :
    ∀ (t : Table) (c k : Bytes),
      tblGet (mergeTable t snap) c k = (tblGet snap c k).or (tblGet t c k) := by
  induction snap with
  | nil =>
    intro t c k
    rw [show mergeTable t [] = t from rfl,
      show tblGet ([] : Table) c k = none from rfl, Option.none_or]
  | cons p rest ih =>
    intro t c k
    obtain ⟨hcols, hinner⟩ := hwf
    rw [List.map_cons, List.nodup_cons] at hcols
    have hwf' : TableWF rest :=
      ⟨hcols.2, fun q hq => hinner q (List.mem_cons_of_mem _ hq)⟩
    have hp2 : (p.2.map Prod.fst).Nodup := hinner p (List.mem_cons_self _ _)
    rw [show mergeTable t (p :: rest)
        = mergeTable (alUpdate p.1 (dictUpdate (alGetD p.1 t []) p.2) t) rest from rfl,
      ih hwf']
    by_cases hc : p.1 = c
    · subst hc
      rw [tblGet_none_of_not_mem rest p.1 k hcols.1, Option.none_or,
        tblGet_update_self, alGet_dictUpdate p.2 hp2, tblGet_cons_self]
      rfl
    · rw [tblGet_update_ne _ _ _ _ _ hc, tblGet_cons_ne _ _ _ _ hc]

lemma mergeLoop_writes_fst (snap : Table) :
    ∀ (is : List Nat) (tables : List Table),
      ((mergeLoop snap is tables).2.1.map Prod.fst) = is := by
  intro is
  induction is with
  | nil => intro tables; rfl
  | cons i rest ih =>
    intro tables
    rw [mergeLoop]
    simp only [List.map_cons]
    rw [ih]

lemma mergeLoop_writes_are_merges (snap : Table) :
    ∀ (is : List Nat) (tables : List Table) (p : Nat × Table),
      p ∈ (mergeLoop snap is tables).2.1 → ∃ t, p.2 = mergeTable t snap := by
  intro is
  induction is with
  | nil =>
    intro tables p hp
    simp [mergeLoop] at hp
  | cons i rest ih =>
    intro tables p hp
    rw [mergeLoop] at hp
    simp only [List.mem_cons] at hp
    rcases hp with hp | hp
    · exact ⟨tables.getD i [], by rw [hp]⟩
    · exact ih _ p hp

lemma mergeLoop_compacts_eq (snap : Table) :
    ∀ (is : List Nat) (tables : List Table),
      (mergeLoop snap is tables).2.2 =
        ((mergeLoop snap is tables).2.1.filter (fun p => decide (200 < p.2.length))).map
          Prod.fst := by
  intro is
  induction is with
  | nil => intro tables; rfl
  | cons i rest ih =>
    intro tables
    rw [mergeLoop]
    by_cases hcond : 200 < (mergeTable (tables.getD i []) snap).length
    · simp only [if_pos hcond, List.filter_cons, decide_eq_true hcond, if_true,
        List.map_cons]
      rw [ih]
    · simp only [if_neg hcond, List.filter_cons]
      rw [decide_eq_false hcond]
      simp only [Bool.false_eq_true, if_false]
      rw [ih]

/-- C7 (confirmed): `merge_sstables(snapshot)` writes a table to every
SSTable level (the ghost write trace covers exactly the level indices in
order); each written table is the level's previous content merged with
the snapshot, and on any lookup the snapshot entry wins over the level's
previous entry for equal `(column, key)`; `compact(i)` is invoked for
exactly those levels whose rewritten table has more than 200 columns. -/
theorem C7_merge_sstables_spec (snap : Table) (tables : List Table) (hwf : TableWF snap) :
    ((mergeSStables snap tables).2.1.map Prod.fst = List.range tables.length) ∧
    (∀ p ∈ (mergeSStables snap tables).2.1, ∃ t, p.2 = mergeTable t snap ∧
        ∀ c k, tblGet p.2 c k = (tblGet snap c k).or (tblGet t c k)) ∧
    ((mergeSStables snap tables).2.2 =
      ((mergeSStables snap tables).2.1.filter (fun p => decide (200 < p.2.length))).map
        Prod.fst) := by
  refine ⟨mergeLoop_writes_fst snap _ tables, ?_, mergeLoop_compacts_eq snap _ tables⟩
  intro p hp
  obtain ⟨t, ht⟩ := mergeLoop_writes_are_merges snap _ tables p hp
  exact ⟨t, ht, fun c k => ht ▸ tblGet_mergeTable snap hwf t c k⟩

/-- C7 witness: the theorem applied at a concrete snapshot and pair of
levels, instantiating the write-trace conjunct. -/
theorem C7_witness :
    TableWF [([99], [([107], [5])])] ∧
    (mergeSStables [([99], [([107], [5])])] [[], []]).2.1.map Prod.fst =
      List.range ([[], []] : List Table).length :=
  ⟨by decide, (C7_merge_sstables_spec [([99], [([107], [5])])] [[], []] (by decide)).1⟩

lemma alGet_mem (k : Bytes) (d : List (Bytes × α)) (y : α) (h : alGet k d = some y) :
    (k, y) ∈ d := by
  induction d with
  | nil => simp [alGet] at h
  | cons p t ih =>
    rw [alGet] at h
    by_cases hp : p.1 = k
    · rw [if_pos hp] at h
      have hy : p.2 = y := by injection h
      obtain ⟨a, b⟩ := p
      subst hp
      subst hy
      exact List.mem_cons_self _ _
    · rw [if_neg hp] at h
      exact List.mem_cons_of_mem _ (ih h)

lemma mem_alUpdate (k : Bytes) (x : α) (d : List (Bytes × α)) (p : Bytes × α)
    (h : p ∈ alUpdate k x d) : p = (k, x) ∨ p ∈ d := by
  induction d with
  | nil => simpa [alUpdate] using h
  | cons q t ih =>
    rw [alUpdate] at h
    by_cases hq : q.1 = k
    · rw [if_pos hq] at h
      rcases List.mem_cons.1 h with h1 | h1
      · exact Or.inl h1
      · exact Or.inr (List.mem_cons_of_mem _ h1)
    · rw [if_neg hq] at h
      rcases List.mem_cons.1 h with h1 | h1
      · exact Or.inr (h1 ▸ List.mem_cons_self _ _)
      · rcases ih h1 with h2 | h2
        · exact Or.inl h2
        · exact Or.inr (List.mem_cons_of_mem _ h2)

lemma mem_map_fst_alUpdate (k : Bytes) (x : α) (d : List (Bytes × α)) (z : Bytes) :
    z ∈ (alUpdate k x d).map Prod.fst ↔ z = k ∨ z ∈ d.map Prod.fst := by
  induction d with
  | nil => simp [alUpdate]
  | cons q t ih =>
    rw [alUpdate]
    by_cases hq : q.1 = k
    · rw [if_pos hq]
      simp [hq, eq_comm]
    · rw [if_neg hq]
      simp only [List.map_cons, List.mem_cons, ih]
      tauto

lemma nodup_alUpdate (k : Bytes) (x : α) (d : List (Bytes × α))
    (h : (d.map Prod.fst).Nodup) : ((alUpdate k x d).map Prod.fst).Nodup := by
  induction d with
  | nil => simp [alUpdate]
  | cons q t ih =>
    rw [List.map_cons, List.nodup_cons] at h
    rw [alUpdate]
    by_cases hq : q.1 = k
    · rw [if_pos hq, List.map_cons, List.nodup_cons]
      exact ⟨hq ▸ h.1, h.2⟩
    · rw [if_neg hq, List.map_cons, List.nodup_cons]
      refine ⟨?_, ih h.2⟩
      rw [mem_map_fst_alUpdate]
      rintro (h1 | h1)
      · exact hq h1
      · exact h.1 h1

lemma nodup_dictUpdate (e : List (Bytes × Bytes)) :
    ∀ (d : List (Bytes × Bytes)), (d.map Prod.fst).Nodup →
      ((dictUpdate d e).map Prod.fst).Nodup := by
  induction e with
  | nil => intro d h; exact h
  | cons p t ih =>
    intro d h
    exact ih _ (nodup_alUpdate _ _ _ h)

lemma TableWF_nil : TableWF ([] : Table) := by
  constructor
  · simp
  · intro p hp
    simp at hp

lemma alGetD_inner_nodup (t : Table) (c : Bytes) (hwf : TableWF t) :
    ((alGetD c t []).map Prod.fst).Nodup := by
  rw [alGetD]
  cases halg : alGet c t with
  | none => simp
  | some y =>
    exact hwf.2 (c, y) (alGet_mem c t y halg)

lemma mergeTable_wf (snap : Table) :
    ∀ (t : Table), TableWF t → TableWF (mergeTable t snap) := by
  induction snap with
  | nil => intro t h; exact h
  | cons p rest ih =>
    intro t h
    rw [show mergeTable t (p :: rest)
        = mergeTable (alUpdate p.1 (dictUpdate (alGetD p.1 t []) p.2) t) rest from rfl]
    refine ih _ ⟨nodup_alUpdate _ _ _ h.1, ?_⟩
    intro q hq
    rcases mem_alUpdate _ _ _ _ hq with h1 | h1
    · rw [h1]
      exact nodup_dictUpdate p.2 _ (alGetD_inner_nodup t p.1 h)
    · exact h.2 q h1

lemma getD_wf_of_forall (tables : List Table) (i : Nat)
    (h : ∀ t ∈ tables, TableWF t) : TableWF (tables.getD i []) := by
  by_cases hi : i < tables.length
  · rw [List.getD_eq_getElem?_getD, List.getElem?_eq_getElem hi]
    exact h _ (List.getElem_mem hi)
  · rw [List.getD_eq_getElem?_getD, List.getElem?_eq_none (by omega)]
    exact TableWF_nil

lemma getD_mem_or_nil (tables : List Table) (i : Nat) :
    tables.getD i [] ∈ tables ∨ tables.getD i [] = [] := by
  by_cases hi : i < tables.length
  · rw [List.getD_eq_getElem?_getD, List.getElem?_eq_getElem hi]
    exact Or.inl (List.getElem_mem hi)
  · rw [List.getD_eq_getElem?_getD, List.getElem?_eq_none (by omega)]
    exact Or.inr rfl

lemma compactT_length (tables : List Table) (i : Nat) :
    (compactT tables i).length = tables.length := by
  rw [compactT]
  by_cases hc : i = tables.length - 1
  · rw [if_pos hc]
  · rw [if_neg hc]
    simp [List.length_set]

lemma mergeLoop_length (snap : Table) :
    ∀ (is : List Nat) (tables : List Table),
      (mergeLoop snap is tables).1.length = tables.length := by
  intro is
  induction is with
  | nil => intro tables; rfl
  | cons i rest ih =>
    intro tables
    rw [mergeLoop]
    by_cases hc : 200 < (mergeTable (tables.getD i []) snap).length
    · simp only [if_pos hc]
      rw [ih, compactT_length, List.length_set]
    · simp only [if_neg hc]
      rw [ih, List.length_set]

lemma mergeLoop_append (snap : Table) :
    ∀ (is1 is2 : List Nat) (tables : List Table),
      (mergeLoop snap (is1 ++ is2) tables).1 =
        (mergeLoop snap is2 (mergeLoop snap is1 tables).1).1 := by
  intro is1
  induction is1 with
  | nil => intro is2 tables; rfl
  | cons i rest ih =>
    intro is2 tables
    rw [List.cons_append, mergeLoop, mergeLoop]
    exact ih is2 _

lemma getD_Q_of_forall (c k v : Bytes) (tables : List Table) (i : Nat)
    (hinv : ∀ t ∈ tables, tblGet t c k = none ∨ tblGet t c k = some v) :
    tblGet (tables.getD i []) c k = none ∨ tblGet (tables.getD i []) c k = some v := by
  rcases getD_mem_or_nil tables i with h | h
  · exact hinv _ h
  · rw [h]
    exact Or.inl rfl

lemma compactT_preserves (c k v : Bytes) (tables : List Table) (i : Nat)
    (hinv : ∀ t ∈ tables, TableWF t ∧ (tblGet t c k = none ∨ tblGet t c k = some v)) :
    ∀ t ∈ compactT tables i,
      TableWF t ∧ (tblGet t c k = none ∨ tblGet t c k = some v) := by
  rw [compactT]
  by_cases hc : i = tables.length - 1
  · rw [if_pos hc]
    exact hinv
  · rw [if_neg hc]
    intro t ht
    have hcurwf : TableWF (tables.getD i []) :=
      getD_wf_of_forall _ _ (fun u hu => (hinv u hu).1)
    have hnxtwf : TableWF (tables.getD (i + 1) []) :=
      getD_wf_of_forall _ _ (fun u hu => (hinv u hu).1)
    rcases List.mem_or_eq_of_mem_set ht with ht1 | ht1
    · rcases List.mem_or_eq_of_mem_set ht1 with ht2 | ht2
      · exact hinv t ht2
      · subst ht2
        refine ⟨mergeTable_wf _ _ hnxtwf, ?_⟩
        rw [tblGet_mergeTable _ hcurwf]
        rcases getD_Q_of_forall c k v tables i (fun u hu => (hinv u hu).2) with h1 | h1 <;>
          rw [h1]
        · rw [Option.none_or]
          exact getD_Q_of_forall c k v tables (i + 1) (fun u hu => (hinv u hu).2)
        · exact Or.inr rfl
    · subst ht1
      exact ⟨TableWF_nil, Or.inl rfl⟩

lemma mergeLoop_preserves (snap : Table) (c k v : Bytes) (hsnap : TableWF snap)
    (hv : tblGet snap c k = some v) :
    ∀ (is : List Nat) (tables : List Table),
      (∀ t ∈ tables, TableWF t ∧ (tblGet t c k = none ∨ tblGet t c k = some v)) →
      ∀ t ∈ (mergeLoop snap is tables).1,
        TableWF t ∧ (tblGet t c k = none ∨ tblGet t c k = some v) := by
  intro is
  induction is with
  | nil => intro tables hinv; exact hinv
  | cons i rest ih =>
    intro tables hinv
    rw [mergeLoop]
    have hwr_wf : TableWF (mergeTable (tables.getD i []) snap) :=
      mergeTable_wf snap _ (getD_wf_of_forall _ _ (fun u hu => (hinv u hu).1))
    have hwr_v : tblGet (mergeTable (tables.getD i []) snap) c k = some v := by
      rw [tblGet_mergeTable snap hsnap, hv]
      rfl
    have hinv1 : ∀ t ∈ tables.set i (mergeTable (tables.getD i []) snap),
        TableWF t ∧ (tblGet t c k = none ∨ tblGet t c k = some v) := by
      intro t ht
      rcases List.mem_or_eq_of_mem_set ht with ht1 | ht1
      · exact hinv t ht1
      · subst ht1
        exact ⟨hwr_wf, Or.inr hwr_v⟩
    by_cases hc : 200 < (mergeTable (tables.getD i []) snap).length
    · simp only [if_pos hc]
      exact ih _ (compactT_preserves c k v _ i hinv1)
    · simp only [if_neg hc]
      exact ih _ hinv1

lemma mergeLoop_last_some (snap : Table) (c k v : Bytes) (hsnap : TableWF snap)
    (hv : tblGet snap c k = some v) (tables : List Table) (hlen : 1 ≤ tables.length) :
    tblGet ((mergeLoop snap (List.range tables.length) tables).1.getD
      (tables.length - 1) []) c k = some v := by
  obtain ⟨m, hm⟩ : ∃ m, tables.length = m + 1 := ⟨tables.length - 1, by omega⟩
  rw [hm, show m + 1 - 1 = m from rfl, show (m + 1 : Nat) = Nat.succ m from rfl,
    List.range_succ, mergeLoop_append]
  have hmidlen : (mergeLoop snap (List.range m) tables).1.length = m + 1 := by
    rw [mergeLoop_length, hm]
  set mid := (mergeLoop snap (List.range m) tables).1 with hmid
  have hwr : tblGet (mergeTable (mid.getD m []) snap) c k = some v := by
    rw [tblGet_mergeTable snap hsnap, hv]
    rfl
  have hset : (mid.set m (mergeTable (mid.getD m []) snap)).getD m []
      = mergeTable (mid.getD m []) snap := by
    rw [List.getD_eq_getElem?_getD, List.getElem?_set, if_pos rfl, if_pos (by omega)]
    rfl
  rw [mergeLoop]
  by_cases hc : 200 < (mergeTable (mid.getD m []) snap).length
  · simp only [if_pos hc]
    rw [show ∀ ts : List Table, (mergeLoop snap [] ts).1 = ts from fun ts => rfl]
    rw [compactT, if_pos (show m = (mid.set m (mergeTable (mid.getD m []) snap)).length - 1 from by rw [List.length_set, hmidlen]; omega)]
    rw [hset]
    exact hwr
  · simp only [if_neg hc]
    rw [show ∀ ts : List Table, (mergeLoop snap [] ts).1 = ts from fun ts => rfl]
    rw [hset]
    exact hwr

lemma findInSSTables_some (c k v : Bytes) :
    ∀ (tables : List Table),
      (∀ t ∈ tables, tblGet t c k = none ∨ tblGet t c k = some v) →
      (∃ t ∈ tables, tblGet t c k = some v) →
      findInSSTables tables c k = some v := by
  intro tables
  induction tables with
  | nil =>
    rintro _ ⟨t, ht, _⟩
    simp at ht
  | cons t rest ih =>
    rintro hQ ⟨u, hu, huv⟩
    rw [findInSSTables]
    cases htg : tblGet t c k with
    | some w =>
      rcases hQ t (List.mem_cons_self _ _) with h1 | h1
      · rw [htg] at h1
        cases h1
      · rw [htg] at h1
        exact h1
    | none =>
      simp only
      apply ih (fun u' hu' => hQ u' (List.mem_cons_of_mem _ hu'))
      rcases List.mem_cons.1 hu with h1 | h1
      · rw [h1] at huv
        rw [huv] at htg
        cases htg
      · exact ⟨u, h1, huv⟩

lemma bloomCheck_after_add (h : Bytes → Nat) (bf : BloomFilter) (x : Bytes)
    (hlen : bf.bit_array.length = bf.size) (hpos : 0 < bf.size) :
    bloomCheck h (bloomAdd h bf x) x = true := by
  rcases Nat.eq_zero_or_pos bf.hash_count with hk | hk
  · rw [bloomCheck, bloomHashes, bloomAdd_hash_count, hk]
    rfl
  · rw [bloomCheck_eq_bit _ _ _ (by rw [bloomAdd_hash_count]; exact hk), bloomAdd_size]
    exact bloomAdd_bit_self _ _ _ hlen hpos hk

lemma dbPut_no_flush (compress : Bytes → Bytes) (h : Bytes → Nat) (db : DB)
    (c k v : Bytes) (hsize : db.memtable.size ≤ 199) :
    dbPut compress h db c k v =
      { db with
        wal := db.wal ++ walAppendPut compress c k v,
        memtable := mtPut db.memtable c k v,
        bloom := bloomAdd h db.bloom (bloomItem c k) } := by
  rw [dbPut]
  rw [if_neg (show ¬ (200 < (mtPut db.memtable c k v).size) from by
    show ¬ (200 < db.memtable.size + 1)
    omega)]

/-- C6 (amended): `delete` removes the key only from the MemTable and
writes no tombstone; when the put's value has already been flushed into
the SSTables, a subsequent `get` returns that SSTable value instead of
nil. Stated for states with dict-shaped tables, a filter whose bit array
matches its size, at least one level, levels not binding `(c, k)` to a
conflicting value, and a memtable below the flush threshold (so `put`
itself does not flush). -/
theorem C6_get_after_flush_and_delete (compress : Bytes → Bytes) (h : Bytes → Nat)
    (db : DB) (c k v : Bytes)
    (hsize : db.memtable.size ≤ 199)
    (hwfm : TableWF db.memtable.table)
    (hts : ∀ t ∈ db.sstables,
      TableWF t ∧ (tblGet t c k = none ∨ tblGet t c k = some v))
    (hblen : db.bloom.bit_array.length = db.bloom.size)
    (hbpos : 0 < db.bloom.size)
    (hnlev : 1 ≤ db.sstables.length) :
    dbGet h (dbDelete (dbFlush (dbPut compress h db c k v)) c k) c k = some v := by
  rw [dbPut_no_flush compress h db c k v hsize]
  have hsnapwf : TableWF (mtPut db.memtable c k v).table := by
    constructor
    · exact nodup_alUpdate _ _ _ hwfm.1
    · intro q hq
      rcases mem_alUpdate _ _ _ _ hq with h1 | h1
      · rw [h1]
        exact nodup_alUpdate _ _ _ (alGetD_inner_nodup _ _ hwfm)
      · exact hwfm.2 q h1
  have hsnapv : tblGet (mtPut db.memtable c k v).table c k = some v := by
    show tblGet (alUpdate c (alUpdate k v (alGetD c db.memtable.table []))
      db.memtable.table) c k = some v
    rw [tblGet_update_self, alGet_alUpdate_self]
  rw [show dbDelete (dbFlush
        { db with
          wal := db.wal ++ walAppendPut compress c k v,
          memtable := mtPut db.memtable c k v,
          bloom := bloomAdd h db.bloom (bloomItem c k) }) c k =
      ⟨mtEmpty, (mergeSStables (mtPut db.memtable c k v).table db.sstables).1,
        bloomAdd h db.bloom (bloomItem c k),
        (db.wal ++ walAppendPut compress c k v) ++ walAppendDel c k⟩ from rfl]
  rw [dbGet, if_pos (bloomCheck_after_add h db.bloom (bloomItem c k) hblen hbpos)]
  rw [show mtGet mtEmpty c k = none from rfl]
  simp only
  apply findInSSTables_some c k v
  · intro t ht
    exact (mergeLoop_preserves (mtPut db.memtable c k v).table c k v hsnapwf hsnapv
      (List.range db.sstables.length) db.sstables hts t ht).2
  · refine ⟨(mergeSStables (mtPut db.memtable c k v).table db.sstables).1.getD
      (db.sstables.length - 1) [], ?_, ?_⟩
    · rcases getD_mem_or_nil
        ((mergeSStables (mtPut db.memtable c k v).table db.sstables).1)
        (db.sstables.length - 1) with hmem | hnil
      · exact hmem
      · exfalso
        have := mergeLoop_last_some (mtPut db.memtable c k v).table c k v hsnapwf hsnapv
          db.sstables hnlev
        rw [show mergeSStables (mtPut db.memtable c k v).table db.sstables
            = mergeLoop (mtPut db.memtable c k v).table
              (List.range db.sstables.length) db.sstables from rfl] at hnil
        rw [hnil] at this
        cases this
    · exact mergeLoop_last_some (mtPut db.memtable c k v).table c k v hsnapwf hsnapv
        db.sstables hnlev

/-- C6 witness: the amended behavior at a fresh engine with concrete
column, key and value. -/
theorem C6_witness :
    (dbInit.memtable.size ≤ 199 ∧ TableWF dbInit.memtable.table ∧
      1 ≤ dbInit.sstables.length) ∧
    dbGet h0 (dbDelete (dbFlush (dbPut cmp0 h0 dbInit [99] [107] [5])) [99] [107])
      [99] [107] = some [5] :=
  ⟨⟨by decide, by decide, by decide⟩,
    C6_get_after_flush_and_delete cmp0 h0 dbInit [99] [107] [5] (by decide) (by decide)
      (by decide)
      (show (List.replicate 10000 false).length = 10000 from List.length_replicate ..)
      (by decide) (by decide)⟩

lemma alGet_isSome_of_mem_keys (k : Bytes) (d : List (Bytes × α))
    (h : k ∈ d.map Prod.fst) : ∃ w, alGet k d = some w := by
  induction d with
  | nil => simp at h
  | cons p t ih =>
    by_cases hp : p.1 = k
    · exact ⟨p.2, by rw [alGet, if_pos hp]⟩
    · rw [alGet, if_neg hp]
      apply ih
      rcases List.mem_cons.1 (List.map_cons Prod.fst p t ▸ h) with h1 | h1
      · exact absurd h1.symm hp
      · exact h1

lemma alGet_some_of_mem (k : Bytes) (v : α) (d : List (Bytes × α))
    (hnd : (d.map Prod.fst).Nodup) (h : (k, v) ∈ d) : alGet k d = some v := by
  induction d with
  | nil => simp at h
  | cons p t ih =>
    rw [List.map_cons, List.nodup_cons] at hnd
    rcases List.mem_cons.1 h with h1 | h1
    · rw [alGet, if_pos (by rw [← h1]), ← h1]
    · rw [alGet, if_neg, ih hnd.2 h1]
      intro hp
      exact hnd.1 (hp ▸ List.mem_map.2 ⟨(k, v), h1, rfl⟩)

lemma mem_rangePairs (d : List (Bytes × Bytes)) (a b k v : Bytes)
    (hnd : (d.map Prod.fst).Nodup) :
    ((k, v) ∈ rangePairs d a b ↔ (a ≤ k ∧ k ≤ b) ∧ (k, v) ∈ d) := by
  rw [rangePairs]
  constructor
  · intro hm
    obtain ⟨k', hk', heq⟩ := List.mem_map.1 hm
    have hkeq : k' = k := congrArg Prod.fst heq
    subst hkeq
    have hveq : alGetD k' d [] = v := congrArg Prod.snd heq
    rw [List.mem_filter] at hk'
    obtain ⟨hks, hpred⟩ := hk'
    have hkmem : k' ∈ d.map Prod.fst :=
      ((List.perm_insertionSort (· ≤ ·) (d.map Prod.fst)).mem_iff).1 hks
    obtain ⟨w, hw⟩ := alGet_isSome_of_mem_keys k' d hkmem
    have hvw : v = w := by
      rw [← hveq, alGetD, hw]
      rfl
    simp only [Bool.and_eq_true, decide_eq_true_eq] at hpred
    exact ⟨hpred, hvw ▸ alGet_mem k' d w hw⟩
  · rintro ⟨⟨ha, hb⟩, hmem⟩
    have halg : alGet k d = some v := alGet_some_of_mem k v d hnd hmem
    refine List.mem_map.2 ⟨k, ?_, by rw [alGetD, halg]; rfl⟩
    rw [List.mem_filter]
    refine ⟨((List.perm_insertionSort (· ≤ ·) (d.map Prod.fst)).mem_iff).2 ?_, by
      simp [ha, hb]⟩
    exact List.mem_map.2 ⟨(k, v), hmem, rfl⟩

lemma mem_queryTables (c a b k v : Bytes) :
    ∀ (tables : List Table),
      ((k, v) ∈ queryTables tables c a b ↔
        ∃ t ∈ tables, (k, v) ∈ rangePairs (alGetD c t []) a b) := by
  intro tables
  induction tables with
  | nil => simp [queryTables]
  | cons t rest ih =>
    rw [queryTables]
    simp only [List.mem_append, ih, List.mem_cons]
    constructor
    · rintro (h1 | ⟨u, hu, h2⟩)
      · exact ⟨t, Or.inl rfl, h1⟩
      · exact ⟨u, Or.inr hu, h2⟩
    · rintro ⟨u, (rfl | hu), h2⟩
      · exact Or.inl h2
      · exact Or.inr ⟨u, hu, h2⟩

lemma rangePairs_sorted (d : List (Bytes × Bytes)) (a b : Bytes) :
    List.Sorted (· ≤ ·) ((rangePairs d a b).map Prod.fst) := by
  rw [rangePairs, List.map_map]
  rw [show (Prod.fst ∘ fun k => ((k : Bytes), alGetD k d [])) = fun k => k from rfl]
  rw [List.map_id']
  exact List.Pairwise.filter _ (List.sorted_insertionSort _ _)

/-- C5 (amended): `query(c, a, b)` returns the in-range pairs of the
MemTable followed by those of each SSTable level in order; a pair is in
the result exactly when its key lies in `[a, b]` and it is resident in
the MemTable's or some level's dict for `c`, each per-source segment is
sorted ascending by key — but there is no cross-source deduplication,
ordering or precedence: a key resident in several sources appears once
per source (see the counterexample). -/
theorem C5_query_characterization (db : DB) (c a b : Bytes)
    (hwfm : ((alGetD c db.memtable.table []).map Prod.fst).Nodup)
    (hts : ∀ t ∈ db.sstables, ((alGetD c t []).map Prod.fst).Nodup) :
    (∀ k v, ((k, v) ∈ dbQuery db c a b ↔
      (a ≤ k ∧ k ≤ b) ∧ ((k, v) ∈ alGetD c db.memtable.table [] ∨
        ∃ t ∈ db.sstables, (k, v) ∈ alGetD c t []))) ∧
    List.Sorted (· ≤ ·) ((rangePairs (alGetD c db.memtable.table []) a b).map Prod.fst) ∧
    ∀ t ∈ db.sstables,
      List.Sorted (· ≤ ·) ((rangePairs (alGetD c t []) a b).map Prod.fst) := by
  refine ⟨?_, rangePairs_sorted _ _ _, fun t _ => rangePairs_sorted _ _ _⟩
  intro k v
  rw [dbQuery, List.mem_append, mem_queryTables]
  have hseg : ∀ t ∈ db.sstables,
      ((k, v) ∈ rangePairs (alGetD c t []) a b ↔
        (a ≤ k ∧ k ≤ b) ∧ (k, v) ∈ alGetD c t []) :=
    fun t ht => mem_rangePairs _ a b k v (hts t ht)
  cases halg : alGet c db.memtable.table with
  | none =>
    have hempty : alGetD c db.memtable.table [] = ([] : List (Bytes × Bytes)) := by
      rw [alGetD, halg]
      rfl
    rw [hempty]
    simp only [List.not_mem_nil, List.mem_nil_iff]
    constructor
    · rintro (h1 | ⟨t, ht, h2⟩)
      · simp at h1
      · exact ((hseg t ht).1 h2).imp_right (fun hm => Or.inr ⟨t, ht, hm⟩)
    · rintro ⟨hr, (h1 | ⟨t, ht, h2⟩)⟩
      · simp at h1
      · exact Or.inr ⟨t, ht, (hseg t ht).2 ⟨hr, h2⟩⟩
  | some d =>
    have hd : alGetD c db.memtable.table [] = d := by
      rw [alGetD, halg]
      rfl
    rw [hd] at hwfm ⊢
    rw [mem_rangePairs d a b k v hwfm]
    constructor
    · rintro (⟨hr, h1⟩ | ⟨t, ht, h2⟩)
      · exact ⟨hr, Or.inl h1⟩
      · exact ((hseg t ht).1 h2).imp_right (fun hm => Or.inr ⟨t, ht, hm⟩)
    · rintro ⟨hr, (h1 | ⟨t, ht, h2⟩)⟩
      · exact Or.inl ⟨hr, h1⟩
      · exact Or.inr ⟨t, ht, (hseg t ht).2 ⟨hr, h2⟩⟩

/-- C5 witness: the characterization applied at a fresh engine and a
concrete column and range. -/
theorem C5_witness :
    (((alGetD [99] dbInit.memtable.table []).map Prod.fst).Nodup ∧
      ∀ t ∈ dbInit.sstables, ((alGetD [99] t []).map Prod.fst).Nodup) ∧
    List.Sorted (· ≤ ·)
      ((rangePairs (alGetD [99] dbInit.memtable.table []) [100] [110]).map Prod.fst) :=
  ⟨⟨by decide, by decide⟩,
    (C5_query_characterization dbInit [99] [100] [110] (by decide) (by decide)).2.1⟩

lemma pad32_length (s : Bytes) : (pad32 s).length = 32 := by
  rw [pad32]
  simp only [List.length_append, List.length_take, List.length_replicate]
  omega

lemma pad32_of_long (s : Bytes) (h : 32 ≤ s.length) : pad32 s = s.take 32 := by
  rw [pad32, Nat.sub_eq_zero_of_le h]
  simp

lemma be32dec_enc (n : Nat) (t : Bytes) (h : n < 4294967296) :
    be32dec (be32enc n ++ t) = n := by
  show ((n / 16777216 % 256 * 256 + n / 65536 % 256) * 256 + n / 256 % 256) * 256
      + n % 256 = n
  omega

lemma walReplayGo_nil (decompress : Bytes → Option Bytes) (f : Nat) :
    walReplayGo decompress (f + 1) [] = .ok [] := by
  rw [walReplayGo]
  rfl

lemma walAppendPut_length (compress : Bytes → Bytes) (c k v : Bytes) :
    (walAppendPut compress c k v).length = 71 + (compress v).length := by
  rw [walAppendPut]
  simp only [List.length_append, pad32_length]
  rw [show opPut.length = 3 from rfl, show (be32enc (compress v).length).length = 4 from rfl]

lemma walReplay_single_put (compress : Bytes → Bytes) (decompress : Bytes → Option Bytes)
    (c k v : Bytes) (hcd : decompress (compress v) = some v)
    (hsz : (compress v).length < 4294967296)
    (hvc : utf8Valid (pad32 c) = true) (hvk : utf8Valid (pad32 k) = true) :
    walReplay decompress (walAppendPut compress c k v) =
      .ok [⟨opPut, stripNul (pad32 c), stripNul (pad32 k), some v⟩] := by
  have hlen : (walAppendPut compress c k v).length = 71 + (compress v).length :=
    walAppendPut_length compress c k v
  have hemp : (walAppendPut compress c k v).isEmpty = false := by
    cases he : (walAppendPut compress c k v).isEmpty
    · rfl
    · rw [List.isEmpty_iff] at he
      rw [he] at hlen
      simp only [List.length_nil] at hlen
      exact absurd hlen (by omega)
  have hshort : ¬ ((walAppendPut compress c k v).length < 71) := by omega
  have hassoc : walAppendPut compress c k v
      = opPut ++ (pad32 c ++ (pad32 k ++ (be32enc (compress v).length ++ compress v))) := by
    rw [walAppendPut]
    simp [List.append_assoc]
  have htake3 : (walAppendPut compress c k v).take 3 = opPut := by
    rw [hassoc, show (3 : Nat) = opPut.length from rfl, List.take_left]
  have hcol : ((walAppendPut compress c k v).drop 3).take 32 = pad32 c := by
    rw [hassoc, show (3 : Nat) = opPut.length from rfl, List.drop_left]
    rw [show (32 : Nat) = (pad32 c).length from (pad32_length c).symm, List.take_left]
  have hkey : ((walAppendPut compress c k v).drop 35).take 32 = pad32 k := by
    rw [walAppendPut,
      show opPut ++ pad32 c ++ pad32 k ++ be32enc (compress v).length ++ compress v
        = (opPut ++ pad32 c) ++ (pad32 k ++ (be32enc (compress v).length ++ compress v))
        from by simp [List.append_assoc]]
    rw [show (35 : Nat) = (opPut ++ pad32 c).length from by
      simp [pad32_length]; rfl, List.drop_left]
    rw [show (32 : Nat) = (pad32 k).length from (pad32_length k).symm, List.take_left]
  have hvlen : be32dec ((walAppendPut compress c k v).drop 67) = (compress v).length := by
    rw [walAppendPut,
      show opPut ++ pad32 c ++ pad32 k ++ be32enc (compress v).length ++ compress v
        = (opPut ++ pad32 c ++ pad32 k) ++ (be32enc (compress v).length ++ compress v)
        from by simp [List.append_assoc]]
    rw [show (67 : Nat) = (opPut ++ pad32 c ++ pad32 k).length from by
      simp [pad32_length]; rfl, List.drop_left]
    exact be32dec_enc _ _ hsz
  have hbody : (walAppendPut compress c k v).drop 71 = compress v := by
    rw [walAppendPut,
      show opPut ++ pad32 c ++ pad32 k ++ be32enc (compress v).length ++ compress v
        = (opPut ++ pad32 c ++ pad32 k ++ be32enc (compress v).length) ++ compress v
        from by simp [List.append_assoc]]
    rw [show (71 : Nat) = (opPut ++ pad32 c ++ pad32 k
      ++ be32enc (compress v).length).length from by simp [pad32_length]; rfl,
      List.drop_left]
  rw [walReplay, hlen]
  rw [walReplayGo]
  rw [if_neg (by rw [hemp]; intro hf; cases hf)]
  rw [if_neg (by rw [hlen]; omega)]
  simp only [htake3, hcol, hkey, hvlen, hbody]
  rw [List.take_length, hcd, List.drop_length]
  rw [show (71 : Nat) + (compress v).length = (70 + (compress v).length) + 1 from by omega,
    walReplayGo_nil]
  simp [hvc, hvk]

lemma length_dropWhile_le (p : α → Bool) (l : List α) :
    (l.dropWhile p).length ≤ l.length := by
  induction l with
  | nil => exact Nat.le_refl _
  | cons a t ih =>
    rw [List.dropWhile_cons]
    by_cases hp : p a = true
    · rw [if_pos hp]
      exact Nat.le_trans ih (by simp)
    · rw [if_neg hp]

lemma stripNul_length_le (b : Bytes) : (stripNul b).length ≤ b.length := by
  rw [stripNul]
  calc (((b.dropWhile (· == 0)).reverse.dropWhile (· == 0)).reverse).length
      = ((b.dropWhile (· == 0)).reverse.dropWhile (· == 0)).length :=
        List.length_reverse _
    _ ≤ (b.dropWhile (· == 0)).reverse.length := length_dropWhile_le _ _
    _ = (b.dropWhile (· == 0)).length := List.length_reverse _
    _ ≤ b.length := length_dropWhile_le _ _

/-- C10 counterexample: for a 33-byte column of 31 ASCII bytes followed
by the two-byte character `C3 A9`, the packed field keeps only the first
32 bytes, ending in the lone lead byte `C3`; that field is not valid
UTF-8, so during replay `column.decode` raises inside the `try` of the
put branch and the record is skipped — replay returns no record at all,
not a record with a differing column as the claim universally asserts. -/
theorem C10_counterexample_split_multibyte :
    32 < (List.replicate 31 97 ++ [195, 169] : Bytes).length ∧
    utf8Valid ((List.replicate 31 97 ++ [195, 169] : Bytes).take 32) = false ∧
    walReplay dec0
      (walAppendPut cmp0 (List.replicate 31 97 ++ [195, 169]) [107] [5]) = .ok [] := by
  refine ⟨by decide, by decide, ?_⟩
  rfl

/-- C10 (amended): a column whose encoding exceeds 32 bytes is silently
truncated by the `32s` packing — the record's column field holds exactly
its first 32 bytes — and the engine's `put` performs no validation: it
appends the truncated record for any column. When the truncated column
field (and the key field) are valid UTF-8, replaying the record yields a
column (the NUL-stripped first 32 bytes) different from the one passed
to `append`; when the truncation splits a multi-byte character the
decode error makes replay skip the put record instead (see the
counterexample). The key field behaves symmetrically. -/
theorem C10_overlong_identifiers_truncated (compress : Bytes → Bytes)
    (decompress : Bytes → Option Bytes) (c k v : Bytes)
    (hc : 32 < c.length)
    (hcd : decompress (compress v) = some v)
    (hsz : (compress v).length < 4294967296)
    (hvc : utf8Valid (c.take 32) = true)
    (hvk : utf8Valid (pad32 k) = true) :
    (((walAppendPut compress c k v).drop 3).take 32 = c.take 32) ∧
    (walReplay decompress (walAppendPut compress c k v) =
      .ok [⟨opPut, stripNul (c.take 32), stripNul (pad32 k), some v⟩]) ∧
    (stripNul (c.take 32) ≠ c) ∧
    (∀ (h : Bytes → Nat) (db : DB),
      (dbPut compress h db c k v).wal = db.wal ++ walAppendPut compress c k v) := by
  have hp : pad32 c = c.take 32 := pad32_of_long c (by omega)
  refine ⟨?_, ?_, ?_, ?_⟩
  · have hassoc : walAppendPut compress c k v
        = opPut ++ (pad32 c ++ (pad32 k ++ (be32enc (compress v).length ++ compress v))) := by
      rw [walAppendPut]
      simp [List.append_assoc]
    have hcol : ((walAppendPut compress c k v).drop 3).take 32 = pad32 c := by
      rw [hassoc, show (3 : Nat) = opPut.length from rfl, List.drop_left,
        show (32 : Nat) = (pad32 c).length from (pad32_length c).symm, List.take_left]
    rw [hcol, hp]
  · rw [walReplay_single_put compress decompress c k v hcd hsz (hp ▸ hvc) hvk, hp]
  · intro heq
    have hl : (stripNul (c.take 32)).length ≤ (c.take 32).length := stripNul_length_le _
    rw [heq, List.length_take] at hl
    omega
  · intro h db
    rw [dbPut]
    by_cases hfl : 200 < (mtPut db.memtable c k v).size
    · simp only [if_pos hfl]
      rfl
    · simp only [if_neg hfl]

/-- C10 witness: a 33-byte ASCII column — its 32-byte truncation is
valid UTF-8 — truncated and replayed. -/
theorem C10_witness :
    (32 < (List.replicate 33 97 : Bytes).length ∧ dec0 (cmp0 [5]) = some [5] ∧
      (cmp0 [5]).length < 4294967296 ∧
      utf8Valid ((List.replicate 33 97 : Bytes).take 32) = true ∧
      utf8Valid (pad32 [107]) = true) ∧
    walReplay dec0 (walAppendPut cmp0 (List.replicate 33 97) [107] [5]) =
      .ok [⟨opPut, stripNul ((List.replicate 33 97 : Bytes).take 32),
        stripNul (pad32 [107]), some [5]⟩] :=
  ⟨⟨by decide, rfl, by decide, by decide, by decide⟩,
    (C10_overlong_identifiers_truncated cmp0 dec0 (List.replicate 33 97) [107] [5]
      (by decide) rfl (by decide) (by decide) (by decide)).2.1⟩
